import Mathlib

/-!
# Verification of the denosim discrete-event simulation kernel

Shallow embedding of the repository's source:

* Namespace `DES` models the engine found in `src/src/model.ts` (a
  concatenation of the data model, the promise-based scheduler
  `initializeSimulation` / `createEvent` / `scheduleEvent` / `runSimulation` /
  `handleEvent`, and the promise-based store `createStore` with its `put` /
  `get` closures).  Virtual times are modelled as `Int`, the global
  `lastId` counter is threaded through the `Simulation` record, and the
  JavaScript stable `Array.prototype.sort` is modelled by a stable
  insertion sort.
* Namespace `Gen` models, from the specification's words, the
  generator-based engine (`src/simulation.ts`, `src/resources.ts`) whose
  source is absent from the repository snapshot; only its tests and the
  example reference it.  See the doc comments there.
-/

namespace DES

/-- Lifecycle states of an event (`EventState` enum in the source). -/
inductive EventState where
  | Fired
  | Scheduled
  | Pending
  | Completed
  | Terminated
deriving DecidableEq, Repr

/-- An event record (`PromiseEvent<T>` in the source).  The opaque process
callback is not stored here; its observable outcome is supplied separately
to `handleEvent` (see `RaceOutcome`).  The source's string ids (`++lastId + ''`)
are modelled as the underlying naturals. -/
structure PromiseEvent (T : Type) where
  id : Nat
  status : EventState
  firedAt : Int
  scheduledAt : Int
  finishedAt : Option Int := none
  item : Option T := none
deriving DecidableEq, Repr

/-- The simulation container (`Simulation` in the source): the virtual clock
and the queue of events.  `nextId` threads the source's module-level `lastId`
counter (`generateId` returns `++lastId`). -/
structure Simulation (T : Type) where
  currentTime : Int
  events : List (PromiseEvent T)
  nextId : Nat
deriving DecidableEq, Repr

/-- Models `initializeSimulation`: `currentTime` 0 and an empty events array
(the `terminate`/`termination` promise pair carries no simulation state and
is modelled at use sites). -/
def initSimulation (T : Type) : Simulation T :=
  { currentTime := 0, events := [], nextId := 0 }

/-- Models `createEvent`: a fresh id from the counter, status `Fired`,
`firedAt = sim.currentTime`, the given due time.  Returns the event together
with the simulation whose id counter advanced (the source keeps the counter
in a module-level variable). -/
def createEvent (sim : Simulation T) (scheduledAt : Int) :
    PromiseEvent T × Simulation T :=
  (⟨sim.nextId + 1, .Fired, sim.currentTime, scheduledAt, none, none⟩,
    { sim with nextId := sim.nextId + 1 })

/-- One step of the stable insertion underlying `sortByScheduledAtDesc`:
`e` is placed before the first element with a strictly smaller or equal…
precisely, `e` goes before `x` exactly when `x.scheduledAt ≤ e.scheduledAt`,
which together with the `foldr` below reproduces the unique stable descending
order of `Array.prototype.sort((a, b) => b.scheduledAt - a.scheduledAt)`. -/
def insertEvent (e : PromiseEvent T) : List (PromiseEvent T) → List (PromiseEvent T)
  | [] => [e]
  | x :: xs =>
    if x.scheduledAt ≤ e.scheduledAt then e :: x :: xs else x :: insertEvent e xs

/-- Models the source's `.sort((a, b) => b.scheduledAt - a.scheduledAt)`:
a stable sort, descending in `scheduledAt` (ECMAScript sorts are stable, and
a stable sort's output is uniquely determined by comparator and input order,
so insertion sort is a faithful model). -/
def sortByScheduledAtDesc (l : List (PromiseEvent T)) : List (PromiseEvent T) :=
  l.foldr insertEvent []

/-- Models `scheduleEvent`: throws a `RangeError` (the specification's
CausalityViolation) when the event is due in the past, otherwise returns the
events array extended with the event marked `Scheduled` and re-sorted. -/
def scheduleEvent (sim : Simulation T) (event : PromiseEvent T) :
    Except String (List (PromiseEvent T)) :=
  if event.scheduledAt < sim.currentTime then
    .error "Event scheduled at a point in time in the past"
  else
    .ok (sortByScheduledAtDesc (sim.events ++ [{ event with status := .Scheduled }]))

/-- `true` exactly on the `error` constructor. -/
def exceptIsError : Except ε α → Bool
  | .error _ => true
  | .ok _ => false

/-- Models the caller pattern `sim.events = scheduleEvent(sim, event)` under
JavaScript exception semantics: when `scheduleEvent` throws, the assignment
does not happen and the simulation is left as it was. -/
def admitEvent (sim : Simulation T) (event : PromiseEvent T) : Simulation T :=
  match scheduleEvent sim event with
  | .ok evs => { sim with events := evs }
  | .error _ => sim

/-- Models `createEvent` immediately followed by `scheduleEvent` with the
caller-side assignment, the admission pattern used by every test and
example in the repository. -/
def fireAndSchedule (sim : Simulation T) (t : Int) : Simulation T :=
  let (e, sim') := createEvent sim t
  admitEvent sim' e

/-- A simulation built from `initializeSimulation` by a sequence of
admissions at the given due times. -/
def buildSim (ts : List Int) : Simulation Int :=
  ts.foldl fireAndSchedule (initSimulation Int)

/-- Models the filter predicate of `runSimulation`'s loop:
`event.scheduledAt >= sim.currentTime && event.status === EventState.Scheduled`. -/
def dueFilter (now : Int) (e : PromiseEvent T) : Bool :=
  (now ≤ e.scheduledAt) && (e.status == EventState.Scheduled)

/-- Models the in-place `event.status = EventState.Pending` on the shared
record inside `sim.events` (records are identified by their unique id). -/
def markPending (i : Nat) (l : List (PromiseEvent T)) : List (PromiseEvent T) :=
  l.map (fun e => if e.id = i then { e with status := EventState.Pending } else e)

/-- Models `runSimulation`'s synchronous while-loop: filter the due
`Scheduled` events, `pop()` the last entry of the filtered array (the array
is kept sorted descending, so this is the earliest due event), advance the
clock to its due time, mark it `Pending`, and continue.  Returns the final
simulation together with the list of dispatched events in dispatch order.
`fuel` bounds the iteration count; `sim.events.length` always suffices
because each iteration consumes one `Scheduled` event. -/
def runLoop : Nat → Simulation T → Simulation T × List (PromiseEvent T)
  | 0, sim => (sim, [])
  | fuel + 1, sim =>
    let todo := sim.events.filter (dueFilter sim.currentTime)
    match todo.getLast? with
    | none => (sim, [])
    | some e =>
      let next := runLoop fuel
        { sim with currentTime := e.scheduledAt, events := markPending e.id sim.events }
      (next.1, e :: next.2)

/-- `runSimulation` run with enough fuel for its whole queue. -/
def runSimulation (sim : Simulation T) : Simulation T × List (PromiseEvent T) :=
  runLoop sim.events.length sim

/-- The observable settlement of the `Promise.race` inside `handleEvent`:
either the event's process promise settles first with its final value, or
the simulation's termination promise settles first. -/
inductive RaceOutcome (T : Type) where
  | processFirst (result : T)
  | terminationFirst
deriving DecidableEq, Repr

/-- Models `handleEvent`: `Promise.race` of the termination branch (which
produces the event with status `Terminated`) against the process branch
(which produces it with the result as `item` and status `Completed`); both
read `sim.currentTime` at settlement, so `sim` here is the simulation state
at the moment the race settles. -/
def handleEvent (sim : Simulation T) (event : PromiseEvent T) :
    RaceOutcome T → PromiseEvent T
  | .terminationFirst =>
    { event with finishedAt := some sim.currentTime, status := .Terminated }
  | .processFirst r =>
    { event with item := some r, finishedAt := some sim.currentTime,
                 status := .Completed }

/-- When, relative to the kernel's shutdown, a dispatched event's process
promise settles.  `runSimulation`'s while-loop plus `sim.terminate(...)`
runs as one synchronous block, so a callback promise either settled during
that block (`resolvedBeforeShutdown`), or settles in a microtask after
`terminate()` has resolved the termination promise
(`resolvedAfterShutdown` — the process still runs to a final value), or
never settles at all (`neverResolves` — the process stays parked). -/
inductive ProcessFate (T : Type) where
  | resolvedBeforeShutdown (result : T)
  | resolvedAfterShutdown (result : T)
  | neverResolves
deriving DecidableEq, Repr

/-- Which branch of `handleEvent`'s `Promise.race` settles first, as the
promise-reaction ordering determines it: every race has subscribed to the
termination promise before `terminate()` runs, so when `terminate()`
resolves it, the termination reaction of each still-unsettled race is
enqueued ahead of any reaction of a callback promise that only settles in
a later microtask.  A process promise therefore wins its race exactly
when it settled before shutdown. -/
def raceOutcome : ProcessFate T → RaceOutcome T
  | .resolvedBeforeShutdown r => .processFirst r
  | .resolvedAfterShutdown _ => .terminationFirst
  | .neverResolves => .terminationFirst

/-- Models the write-backs queued by `runSimulation`
(`handleEvent(...).then(newEvent => { sim.events = sim.events.map(...) })`)
as they settle after `sim.terminate` fires: every event still `Pending`
when the loop stopped is replaced by its race result. -/
def settleAll (sim : Simulation T) (outcome : Nat → RaceOutcome T) :
    List (PromiseEvent T) :=
  sim.events.map (fun e =>
    if e.status = EventState.Pending then handleEvent sim e (outcome e.id) else e)

/-- State of the promise-based store (`createStore` in the source): `items`
are the deposited, not yet claimed values; `queue` holds the `resolve`
callbacks of consumers whose `get` found no item, modelled by the
consumers' identities in arrival order.  The source's `id: crypto.randomUUID()`
field is omitted: no operation reads it. -/
structure StoreState (T : Type) where
  items : List T
  queue : List Nat
deriving DecidableEq, Repr

/-- Models `createStore(initialItems = [])`. -/
def createStore (initialItems : List T := []) : StoreState T :=
  { items := initialItems, queue := [] }

/-- Models the store's `put`: `const pendingRequest = state.queue.shift();
if (pendingRequest) { pendingRequest(item); } else { state.items.push(item); }`.
The shifted value is a consumer's `resolve` *function*, so the truthiness
test succeeds exactly when the queue was non-empty (`shift()` on an empty
array yields the falsy `undefined`); the oldest waiting consumer, if any,
is resolved with the item (second component: who received it).  The third
component models `return Promise.resolve(item)`: the producer's own call
always resolves immediately with the item. -/
def put (st : StoreState T) (item : T) : StoreState T × Option Nat × T :=
  match st.queue with
  | c :: rest => ({ st with queue := rest }, some c, item)
  | [] => ({ st with items := st.items ++ [item] }, none, item)

/-- Result of the store's `get` for the requesting consumer. -/
inductive GetResult (T : Type) where
  | served (item : T)
  | parked
deriving DecidableEq, Repr

/-- Models the store's `get`: `const pendingItem = state.items.shift();
if (pendingItem) { return Promise.resolve(pendingItem); } return new
Promise(resolve => { state.queue.push(resolve); });`.  `shift()` removes
the head item when one exists, and the subsequent test is JavaScript
*truthiness* on the shifted value (`truthy` stands for that test on the
payload type): a truthy head item is served; a falsy head item (for
example the number 0 or the empty string) has already been removed and is
lost, and the consumer parks exactly as when no item existed at all. -/
def get (truthy : T → Bool) (st : StoreState T) (consumer : Nat) :
    StoreState T × GetResult T :=
  match st.items with
  | x :: rest =>
    if truthy x then ({ st with items := rest }, .served x)
    else ({ st with items := rest, queue := st.queue ++ [consumer] }, .parked)
  | [] => ({ st with queue := st.queue ++ [consumer] }, .parked)

/-- JavaScript truthiness on numeric payloads (the tests use numbers and
non-empty strings): `0` is falsy, every other integer is truthy. -/
def jsTruthyInt : Int → Bool := fun x => decide (x ≠ 0)

/-- A store operation of a client: a deposit, or a request by a consumer. -/
inductive StoreOp (T : Type) where
  | putOp (item : T)
  | getOp (consumer : Nat)
deriving DecidableEq, Repr

/-- The items deposited by an operation sequence, in order. -/
def putItems : List (StoreOp T) → List T
  | [] => []
  | .putOp x :: rest => x :: putItems rest
  | .getOp _ :: rest => putItems rest

/-- Runs a sequence of store operations, collecting the deliveries
`(consumer, item)` in the order they happen (a delivery happens either when
a `put` resolves a waiting consumer or when a `get` shifts a truthy item). -/
def runOps (truthy : T → Bool) (st : StoreState T) :
    List (StoreOp T) → StoreState T × List (Nat × T)
  | [] => (st, [])
  | .putOp item :: rest =>
    let step := put st item
    let next := runOps truthy step.1 rest
    (next.1, (match step.2.1 with | some c => [(c, item)] | none => []) ++ next.2)
  | .getOp c :: rest =>
    let step := get truthy st c
    let next := runOps truthy step.1 rest
    (next.1, (match step.2 with | .served x => [(c, x)] | .parked => []) ++ next.2)

end DES

namespace Gen

/-- Modelled from the spec: the process language of the generator-based
engine (`src/simulation.ts` / `src/resources.ts`, absent from the
repository snapshot; only their tests and the example remain).  A process
is "a cooperative, suspendable unit of work" whose suspension points "are
exactly the Store operations"; as in every test and example, each process
performs one store operation and then returns. -/
inductive GProg (T : Type) where
  | putOp (item : T) (blocking : Bool)
  | getOp
deriving DecidableEq, Repr

/-- Modelled from the spec: an event of the generator engine — a unique id
(admission order), a due time, the lifecycle status, the completion time
once the process ran to its final result, the received item for consumers,
and the attached process. -/
structure GEvent (T : Type) where
  id : Nat
  scheduledAt : Int
  status : DES.EventState
  finishedAt : Option Int := none
  item : Option T := none
  prog : GProg T
deriving DecidableEq, Repr

/-- Modelled from the spec: an entry of `putRequests` — "ordered list of
(item, owning process, blocking-flag) — deposited items not yet claimed".
`depositTime` records the virtual time of the deposit (the producer's
dispatch turn), used to state the timing properties. -/
structure PutEntry (T : Type) where
  item : T
  producer : Nat
  blocking : Bool
  depositTime : Int
deriving DecidableEq, Repr

/-- A record of one store match, written when a deposit is delivered to a
consumer: the item, the two owning processes, the producer's blocking flag,
the deposit's virtual time and the match's virtual time. -/
structure MatchEntry (T : Type) where
  item : T
  producer : Nat
  consumer : Nat
  blocking : Bool
  depositTime : Int
  matchTime : Int
deriving DecidableEq, Repr

/-- Modelled from the spec: the whole generator-engine state — the virtual
clock, the admitted events, the store's two queues (`putRequests`:
deposited items not yet claimed; `getRequests`: consumers waiting for an
item), plus the log of matches used to state the claims. -/
structure GState (T : Type) where
  currentTime : Int
  events : List (GEvent T)
  putRequests : List (PutEntry T)
  getRequests : List Nat
  log : List (MatchEntry T)
deriving DecidableEq, Repr

/-- Modelled from the spec: the scheduler considers "admitted Scheduled
events with `scheduledAt ≥ currentTime`". -/
def due (now : Int) (e : GEvent T) : Bool :=
  (e.status == DES.EventState.Scheduled) && (now ≤ e.scheduledAt)

/-- The earlier-due (ties: smaller-id) of a candidate and the best so far. -/
def pickBetter (x : GEvent T) : Option (GEvent T) → Option (GEvent T)
  | none => some x
  | some b =>
    if x.scheduledAt < b.scheduledAt ∨
        (x.scheduledAt = b.scheduledAt ∧ x.id < b.id) then some x else some b

/-- Picks the event with the smallest `scheduledAt`, ties broken by the
smaller id (spec: "ties are broken by admission order"). -/
def pickMin : List (GEvent T) → Option (GEvent T)
  | [] => none
  | x :: xs => pickBetter x (pickMin xs)

/-- Modelled from the spec: "repeatedly selects, among admitted Scheduled
events with `scheduledAt ≥ currentTime`, the one with the smallest
`scheduledAt`; ties are broken by admission order". -/
def selectNext (now : Int) (l : List (GEvent T)) : Option (GEvent T) :=
  pickMin (l.filter (due now))

/-- Updates every event carrying the given id (ids are unique in any run
the tests build, and every property below is stated for all carriers). -/
def updE (i : Nat) (f : GEvent T → GEvent T) (l : List (GEvent T)) :
    List (GEvent T) :=
  l.map (fun ev => if ev.id = i then f ev else ev)

/-- The process ran to its final result at virtual time `t`
(status `Completed`, `finishedAt = t`). -/
def completeAt (t : Int) (ev : GEvent T) : GEvent T :=
  { ev with status := .Completed, finishedAt := some t }

/-- A consumer receives item `x` and completes at virtual time `t`. -/
def receiveAt (t : Int) (x : T) (ev : GEvent T) : GEvent T :=
  { ev with status := .Completed, finishedAt := some t, item := some x }

/-- The process parks on a store wait: it stays `Pending`, with no
terminal transition. -/
def parkEv (ev : GEvent T) : GEvent T :=
  { ev with status := .Pending }

/-- Modelled from the spec (§4.2–§4.4): dispatching one selected event.
The clock advances to its due time, it is marked `Pending` and its process
runs:

* `put(item, blocking)` — "if `getRequests` is non-empty, pop the oldest
  waiting consumer and deliver the item immediately (consumer resumes now);
  the producer resumes now as well regardless of `blocking`".  Otherwise
  enqueue `{item, process, blocking}` onto `putRequests`; a non-blocking
  producer's call returns immediately (it completes this turn), a blocking
  producer parks.
* `get` — "if `putRequests` is non-empty, pop the oldest entry, deliver its
  item to the requesting process"; "if that popped entry's producer was
  parked in blocking mode, the producer also resumes now, with its own
  `finishedAt`/resume time equal to this match's current time".  Otherwise
  the consumer is enqueued onto `getRequests` and parks. -/
def dispatch (st : GState T) (e : GEvent T) : GState T :=
  let now := e.scheduledAt
  match e.prog with
  | .putOp item blocking =>
    match st.getRequests with
    | c :: rest =>
      { currentTime := now
        events := updE c (receiveAt now item) (updE e.id (completeAt now) st.events)
        putRequests := st.putRequests
        getRequests := rest
        log := st.log ++ [⟨item, e.id, c, blocking, now, now⟩] }
    | [] =>
      { currentTime := now
        events :=
          if blocking then updE e.id parkEv st.events
          else updE e.id (completeAt now) st.events
        putRequests := st.putRequests ++ [⟨item, e.id, blocking, now⟩]
        getRequests := []
        log := st.log }
  | .getOp =>
    match st.putRequests with
    | p :: rest =>
      { currentTime := now
        events :=
          if p.blocking then
            updE p.producer (completeAt now)
              (updE e.id (receiveAt now p.item) st.events)
          else updE e.id (receiveAt now p.item) st.events
        putRequests := rest
        getRequests := st.getRequests
        log := st.log ++ [⟨p.item, p.producer, e.id, p.blocking, p.depositTime, now⟩] }
    | [] =>
      { currentTime := now
        events := updE e.id parkEv st.events
        putRequests := st.putRequests
        getRequests := st.getRequests ++ [e.id]
        log := st.log }

/-- Modelled from the spec: the scheduler loop — dispatch the selected due
event until none remains; parked processes are resumed only by store
matches inside a dispatch turn, never by the clock. -/
def run : Nat → GState T → GState T
  | 0, st => st
  | fuel + 1, st =>
    match selectNext st.currentTime st.events with
    | none => st
    | some e => run fuel (dispatch st e)

end Gen

/-! ## Invariant development for the generator engine -/

namespace Gen

/-- Every event carrying a logged match's producer id is completed, at the
match time for a blocking deposit and at the deposit time otherwise. -/
def ProducerOk (events : List (GEvent T)) (m : MatchEntry T) : Prop :=
  ∀ ev ∈ events, ev.id = m.producer →
    ev.status = DES.EventState.Completed ∧
    ev.finishedAt = some (if m.blocking then m.matchTime else m.depositTime)

/-- Every event carrying a logged match's consumer id is completed at the
match time, holding the matched item. -/
def ConsumerOk (events : List (GEvent T)) (m : MatchEntry T) : Prop :=
  ∀ ev ∈ events, ev.id = m.consumer →
    ev.status = DES.EventState.Completed ∧ ev.finishedAt = some m.matchTime ∧
    ev.item = some m.item

/-- Every event carrying an unclaimed deposit's producer id runs that
deposit's program; it is parked if the deposit blocks, and otherwise
already completed at the deposit time. -/
def PutReqOk (events : List (GEvent T)) (p : PutEntry T) : Prop :=
  ∀ ev ∈ events, ev.id = p.producer →
    ev.prog = GProg.putOp p.item p.blocking ∧
    (p.blocking = true → ev.status = DES.EventState.Pending) ∧
    (p.blocking = false → ev.status = DES.EventState.Completed ∧
      ev.finishedAt = some p.depositTime)

/-- Every event carrying a waiting consumer's id is a parked `get`. -/
def GetReqOk (events : List (GEvent T)) (c : Nat) : Prop :=
  ∀ ev ∈ events, ev.id = c →
    ev.status = DES.EventState.Pending ∧ ev.prog = GProg.getOp

/-- The run invariant of the generator engine. -/
structure Inv (st : GState T) : Prop where
  logOk : ∀ m ∈ st.log, ProducerOk st.events m ∧ ConsumerOk st.events m
  putOk : ∀ p ∈ st.putRequests, PutReqOk st.events p
  getOk : ∀ c ∈ st.getRequests, GetReqOk st.events c
  putNodup : (st.putRequests.map PutEntry.producer).Nodup
  getNodup : st.getRequests.Nodup
  idNodup : (st.events.map GEvent.id).Nodup

theorem completeAt_id (t : Int) (ev : GEvent T) : (completeAt t ev).id = ev.id := rfl

theorem receiveAt_id (t : Int) (x : T) (ev : GEvent T) :
    (receiveAt t x ev).id = ev.id := rfl

theorem parkEv_id (ev : GEvent T) : (parkEv ev).id = ev.id := rfl

theorem mem_updE {l : List (GEvent T)} {ev' : GEvent T}
    {i : Nat} {f : GEvent T → GEvent T} (h : ev' ∈ updE i f l) :
    ∃ ev, ev ∈ l ∧ ((ev.id = i ∧ ev' = f ev) ∨ (ev.id ≠ i ∧ ev' = ev)) := by
  rcases List.mem_map.mp h with ⟨ev, hev, hx⟩
  by_cases hi : ev.id = i
  · exact ⟨ev, hev, Or.inl ⟨hi, by rw [← hx, if_pos hi]⟩⟩
  · exact ⟨ev, hev, Or.inr ⟨hi, by rw [← hx, if_neg hi]⟩⟩

theorem updE_map_id (i : Nat) (f : GEvent T → GEvent T)
    (hf : ∀ ev, (f ev).id = ev.id) (l : List (GEvent T)) :
    (updE i f l).map GEvent.id = l.map GEvent.id := by
  unfold updE
  rw [List.map_map]
  apply List.map_congr_left
  intro ev _
  by_cases hi : ev.id = i <;> simp [hi, hf]

/-- A predicate on the carriers of an id not hit by the update transfers
through `updE`. -/
theorem updE_pred_preserved {evs : List (GEvent T)} {i : Nat}
    {f : GEvent T → GEvent T} (hfid : ∀ ev, (f ev).id = ev.id)
    {k : Nat} (hk : k ≠ i) {P : GEvent T → Prop}
    (h : ∀ ev ∈ evs, ev.id = k → P ev) :
    ∀ ev' ∈ updE i f evs, ev'.id = k → P ev' := by
  intro ev' hev' hid
  rcases mem_updE hev' with ⟨ev, hev, ⟨hi, rfl⟩ | ⟨_, rfl⟩⟩
  · exfalso
    apply hk
    rw [← hid, hfid, hi]
  · exact h ev' hev hid

/-- A predicate on the carriers of the updated id holds after `updE` if it
holds of the update's image on each old carrier. -/
theorem updE_pred_updated {evs : List (GEvent T)} {i : Nat}
    {f : GEvent T → GEvent T} {P : GEvent T → Prop}
    (h : ∀ ev ∈ evs, ev.id = i → P (f ev)) :
    ∀ ev' ∈ updE i f evs, ev'.id = i → P ev' := by
  intro ev' hev' hid
  rcases mem_updE hev' with ⟨ev, hev, ⟨hi, rfl⟩ | ⟨hi, rfl⟩⟩
  · exact h ev hev hi
  · exact absurd hid hi

theorem carrier_eq {events : List (GEvent T)} {e ev : GEvent T}
    (hN : (events.map GEvent.id).Nodup) (hev : ev ∈ events) (he : e ∈ events)
    (h : ev.id = e.id) : ev = e :=
  List.inj_on_of_nodup_map hN hev he h

/-- The newly selected event (still `Scheduled`) cannot be the producer of
an unclaimed deposit. -/
theorem putReq_producer_ne {st : GState T} (inv : Inv st)
    {e : GEvent T} (he : e ∈ st.events)
    (hs : e.status = DES.EventState.Scheduled)
    {p : PutEntry T} (hp : p ∈ st.putRequests) : p.producer ≠ e.id := by
  intro h
  have hP := inv.putOk p hp e he h.symm
  cases hb : p.blocking with
  | true => have h2 := hP.2.1 hb; rw [hs] at h2; simp at h2
  | false => have h2 := (hP.2.2 hb).1; rw [hs] at h2; simp at h2

/-- The newly selected event cannot be a waiting consumer. -/
theorem getReq_ne {st : GState T} (inv : Inv st)
    {e : GEvent T} (he : e ∈ st.events)
    (hs : e.status = DES.EventState.Scheduled)
    {c : Nat} (hc : c ∈ st.getRequests) : c ≠ e.id := by
  intro h
  have hG := inv.getOk c hc e he h.symm
  rw [hs] at hG
  simp at hG

/-- The newly selected event cannot be a logged producer. -/
theorem log_producer_ne {st : GState T} (inv : Inv st)
    {e : GEvent T} (he : e ∈ st.events)
    (hs : e.status = DES.EventState.Scheduled)
    {m : MatchEntry T} (hm : m ∈ st.log) : m.producer ≠ e.id := by
  intro h
  have hP := (inv.logOk m hm).1 e he h.symm
  rw [hs] at hP
  simp at hP

/-- The newly selected event cannot be a logged consumer. -/
theorem log_consumer_ne {st : GState T} (inv : Inv st)
    {e : GEvent T} (he : e ∈ st.events)
    (hs : e.status = DES.EventState.Scheduled)
    {m : MatchEntry T} (hm : m ∈ st.log) : m.consumer ≠ e.id := by
  intro h
  have hC := (inv.logOk m hm).2 e he h.symm
  rw [hs] at hC
  simp at hC

/-- Invariant preservation: dispatching a `put` that finds a waiting
consumer (the oldest, `c`) — both processes complete at the current turn. -/
theorem Inv_dispatch_put_match {T : Type} {st : GState T} {e : GEvent T}
    {item : T} {blocking : Bool} {c : Nat} {rest : List Nat}
    (inv : Inv st) (he : e ∈ st.events)
    (hs : e.status = DES.EventState.Scheduled)
    (hprog : e.prog = GProg.putOp item blocking)
    (hget : st.getRequests = c :: rest) :
    Inv (⟨e.scheduledAt,
      updE c (receiveAt e.scheduledAt item)
        (updE e.id (completeAt e.scheduledAt) st.events),
      st.putRequests, rest,
      st.log ++ [⟨item, e.id, c, blocking, e.scheduledAt, e.scheduledAt⟩]⟩ :
        GState T) := by
  have hcmem : c ∈ st.getRequests := by
    rw [hget]; exact List.mem_cons_self c rest
  have hcne : c ≠ e.id := getReq_ne inv he hs hcmem
  have hrid : ∀ ev : GEvent T, (receiveAt e.scheduledAt item ev).id = ev.id :=
    fun _ => rfl
  have hcid : ∀ ev : GEvent T, (completeAt e.scheduledAt ev).id = ev.id :=
    fun _ => rfl
  refine ⟨?_, ?_, ?_, inv.putNodup, ?_, ?_⟩
  · -- logOk
    intro m hm
    rcases List.mem_append.mp hm with hm | hm
    · have hmp : m.producer ≠ e.id := log_producer_ne inv he hs hm
      have hmc : m.consumer ≠ e.id := log_consumer_ne inv he hs hm
      constructor
      · by_cases h2 : m.producer = c
        · rw [ProducerOk, h2]
          refine updE_pred_updated (updE_pred_preserved hcid (h2 ▸ hcne) ?_)
          intro ev hev hevc
          exfalso
          have hA := ((inv.logOk m hm).1 ev hev (h2 ▸ hevc)).1
          have hB := (inv.getOk c hcmem ev hev hevc).1
          rw [hA] at hB
          simp at hB
        · rw [ProducerOk]
          exact updE_pred_preserved hrid h2
            (updE_pred_preserved hcid hmp ((inv.logOk m hm).1))
      · by_cases h2 : m.consumer = c
        · rw [ConsumerOk, h2]
          refine updE_pred_updated (updE_pred_preserved hcid (h2 ▸ hcne) ?_)
          intro ev hev hevc
          exfalso
          have hA := ((inv.logOk m hm).2 ev hev (h2 ▸ hevc)).1
          have hB := (inv.getOk c hcmem ev hev hevc).1
          rw [hA] at hB
          simp at hB
        · rw [ConsumerOk]
          exact updE_pred_preserved hrid h2
            (updE_pred_preserved hcid hmc ((inv.logOk m hm).2))
    · rcases List.mem_singleton.mp hm with rfl
      constructor
      · rw [ProducerOk]
        refine updE_pred_preserved hrid (Ne.symm hcne)
          (updE_pred_updated ?_)
        intro ev hev hevi
        exact ⟨rfl, by cases blocking <;> rfl⟩
      · rw [ConsumerOk]
        refine updE_pred_updated (updE_pred_preserved hcid hcne ?_)
        intro ev hev hevc
        exact ⟨rfl, rfl, rfl⟩
  · -- putOk
    intro p hp
    have hpne : p.producer ≠ e.id := putReq_producer_ne inv he hs hp
    by_cases h2 : p.producer = c
    · rw [PutReqOk, h2]
      refine updE_pred_updated (updE_pred_preserved hcid (h2 ▸ hcne) ?_)
      intro ev hev hevc
      exfalso
      have hA := (inv.putOk p hp ev hev (h2 ▸ hevc)).1
      have hB := (inv.getOk c hcmem ev hev hevc).2
      rw [hA] at hB
      simp at hB
    · rw [PutReqOk]
      exact updE_pred_preserved hrid h2
        (updE_pred_preserved hcid hpne (inv.putOk p hp))
  · -- getOk
    intro c' hc'
    have hc'm : c' ∈ st.getRequests := by
      rw [hget]; exact List.mem_cons_of_mem c hc'
    have hc'e : c' ≠ e.id := getReq_ne inv he hs hc'm
    have hc'c : c' ≠ c := by
      intro h
      have hN := inv.getNodup
      rw [hget] at hN
      exact (List.nodup_cons.mp hN).1 (h ▸ hc')
    rw [GetReqOk]
    exact updE_pred_preserved hrid hc'c
      (updE_pred_preserved hcid hc'e (inv.getOk c' hc'm))
  · -- getNodup
    have hN := inv.getNodup
    rw [hget] at hN
    exact (List.nodup_cons.mp hN).2
  · -- idNodup
    show (List.map GEvent.id _).Nodup
    rw [updE_map_id _ _ hrid, updE_map_id _ _ hcid]
    exact inv.idNodup

/-- Invariant preservation: a blocking `put` with no waiting consumer —
the deposit is queued and the producer parks. -/
theorem Inv_dispatch_put_park {T : Type} {st : GState T} {e : GEvent T}
    {item : T}
    (inv : Inv st) (he : e ∈ st.events)
    (hs : e.status = DES.EventState.Scheduled)
    (hprog : e.prog = GProg.putOp item true) :
    Inv (⟨e.scheduledAt, updE e.id parkEv st.events,
      st.putRequests ++ [⟨item, e.id, true, e.scheduledAt⟩], [], st.log⟩ :
        GState T) := by
  have hpid : ∀ ev : GEvent T, (parkEv ev).id = ev.id := fun _ => rfl
  refine ⟨?_, ?_, ?_, ?_, List.nodup_nil, ?_⟩
  · intro m hm
    constructor
    · rw [ProducerOk]
      exact updE_pred_preserved hpid (log_producer_ne inv he hs hm)
        ((inv.logOk m hm).1)
    · rw [ConsumerOk]
      exact updE_pred_preserved hpid (log_consumer_ne inv he hs hm)
        ((inv.logOk m hm).2)
  · intro p hp
    rcases List.mem_append.mp hp with hp | hp
    · rw [PutReqOk]
      exact updE_pred_preserved hpid (putReq_producer_ne inv he hs hp)
        (inv.putOk p hp)
    · rcases List.mem_singleton.mp hp with rfl
      rw [PutReqOk]
      refine updE_pred_updated ?_
      intro ev hev hevi
      have heq : ev = e := carrier_eq inv.idNodup hev he hevi
      subst heq
      refine ⟨hprog, fun _ => rfl, fun hff => ?_⟩
      simp at hff
  · intro c hc
    simp at hc
  · rw [List.map_append, List.nodup_append]
    refine ⟨inv.putNodup, List.nodup_singleton _, ?_⟩
    intro a ha hb
    rcases List.mem_singleton.mp hb with rfl
    rcases List.mem_map.mp ha with ⟨p, hp, hpa⟩
    exact putReq_producer_ne inv he hs hp hpa
  · show (List.map GEvent.id _).Nodup
    rw [updE_map_id _ _ hpid]
    exact inv.idNodup

/-- Invariant preservation: a non-blocking `put` with no waiting consumer —
the deposit is queued and the producer completes this turn. -/
theorem Inv_dispatch_put_queue {T : Type} {st : GState T} {e : GEvent T}
    {item : T}
    (inv : Inv st) (he : e ∈ st.events)
    (hs : e.status = DES.EventState.Scheduled)
    (hprog : e.prog = GProg.putOp item false) :
    Inv (⟨e.scheduledAt, updE e.id (completeAt e.scheduledAt) st.events,
      st.putRequests ++ [⟨item, e.id, false, e.scheduledAt⟩], [], st.log⟩ :
        GState T) := by
  have hcid : ∀ ev : GEvent T, (completeAt e.scheduledAt ev).id = ev.id :=
    fun _ => rfl
  refine ⟨?_, ?_, ?_, ?_, List.nodup_nil, ?_⟩
  · intro m hm
    constructor
    · rw [ProducerOk]
      exact updE_pred_preserved hcid (log_producer_ne inv he hs hm)
        ((inv.logOk m hm).1)
    · rw [ConsumerOk]
      exact updE_pred_preserved hcid (log_consumer_ne inv he hs hm)
        ((inv.logOk m hm).2)
  · intro p hp
    rcases List.mem_append.mp hp with hp | hp
    · rw [PutReqOk]
      exact updE_pred_preserved hcid (putReq_producer_ne inv he hs hp)
        (inv.putOk p hp)
    · rcases List.mem_singleton.mp hp with rfl
      rw [PutReqOk]
      refine updE_pred_updated ?_
      intro ev hev hevi
      have heq : ev = e := carrier_eq inv.idNodup hev he hevi
      subst heq
      refine ⟨hprog, fun htt => ?_, fun _ => ⟨rfl, rfl⟩⟩
      simp at htt
  · intro c hc
    simp at hc
  · rw [List.map_append, List.nodup_append]
    refine ⟨inv.putNodup, List.nodup_singleton _, ?_⟩
    intro a ha hb
    rcases List.mem_singleton.mp hb with rfl
    rcases List.mem_map.mp ha with ⟨p, hp, hpa⟩
    exact putReq_producer_ne inv he hs hp hpa
  · show (List.map GEvent.id _).Nodup
    rw [updE_map_id _ _ hcid]
    exact inv.idNodup

/-- Invariant preservation: a `get` that finds an unclaimed blocking
deposit — the consumer receives the item and the parked producer resumes
now, completing at the match time. -/
theorem Inv_dispatch_get_match_blocking {T : Type} {st : GState T}
    {e : GEvent T} {p : PutEntry T} {rest : List (PutEntry T)}
    (inv : Inv st) (he : e ∈ st.events)
    (hs : e.status = DES.EventState.Scheduled)
    (_hprog : e.prog = GProg.getOp)
    (hput : st.putRequests = p :: rest)
    (hb : p.blocking = true) :
    Inv (⟨e.scheduledAt,
      updE p.producer (completeAt e.scheduledAt)
        (updE e.id (receiveAt e.scheduledAt p.item) st.events),
      rest, st.getRequests,
      st.log ++ [⟨p.item, p.producer, e.id, p.blocking, p.depositTime,
        e.scheduledAt⟩]⟩ : GState T) := by
  have hpmem : p ∈ st.putRequests := by
    rw [hput]; exact List.mem_cons_self p rest
  have hpne : p.producer ≠ e.id := putReq_producer_ne inv he hs hpmem
  have hrid : ∀ ev : GEvent T, (receiveAt e.scheduledAt p.item ev).id = ev.id :=
    fun _ => rfl
  have hcid : ∀ ev : GEvent T, (completeAt e.scheduledAt ev).id = ev.id :=
    fun _ => rfl
  refine ⟨?_, ?_, ?_, ?_, inv.getNodup, ?_⟩
  · -- logOk
    intro m hm
    rcases List.mem_append.mp hm with hm | hm
    · have hmp : m.producer ≠ e.id := log_producer_ne inv he hs hm
      have hmc : m.consumer ≠ e.id := log_consumer_ne inv he hs hm
      constructor
      · by_cases h2 : m.producer = p.producer
        · rw [ProducerOk, h2]
          refine updE_pred_updated (updE_pred_preserved hrid hpne ?_)
          intro ev hev hevp
          exfalso
          have hA := ((inv.logOk m hm).1 ev hev (h2 ▸ hevp)).1
          have hB := (inv.putOk p hpmem ev hev hevp).2.1 hb
          rw [hA] at hB
          simp at hB
        · rw [ProducerOk]
          exact updE_pred_preserved hcid h2
            (updE_pred_preserved hrid hmp ((inv.logOk m hm).1))
      · by_cases h2 : m.consumer = p.producer
        · rw [ConsumerOk, h2]
          refine updE_pred_updated (updE_pred_preserved hrid hpne ?_)
          intro ev hev hevp
          exfalso
          have hA := ((inv.logOk m hm).2 ev hev (h2 ▸ hevp)).1
          have hB := (inv.putOk p hpmem ev hev hevp).2.1 hb
          rw [hA] at hB
          simp at hB
        · rw [ConsumerOk]
          exact updE_pred_preserved hcid h2
            (updE_pred_preserved hrid hmc ((inv.logOk m hm).2))
    · rcases List.mem_singleton.mp hm with rfl
      constructor
      · rw [ProducerOk]
        refine updE_pred_updated (updE_pred_preserved hrid hpne ?_)
        intro ev hev hevp
        exact ⟨rfl, by simp [hb, completeAt]⟩
      · rw [ConsumerOk]
        refine updE_pred_preserved hcid (Ne.symm hpne)
          (updE_pred_updated ?_)
        intro ev hev hevi
        exact ⟨rfl, rfl, rfl⟩
  · -- putOk
    intro p' hp'
    have hp'm : p' ∈ st.putRequests := by
      rw [hput]; exact List.mem_cons_of_mem p hp'
    have hp'e : p'.producer ≠ e.id := putReq_producer_ne inv he hs hp'm
    have hp'p : p'.producer ≠ p.producer := by
      intro h
      have hN := inv.putNodup
      rw [hput, List.map_cons] at hN
      exact (List.nodup_cons.mp hN).1 (h ▸ List.mem_map_of_mem PutEntry.producer hp')
    rw [PutReqOk]
    exact updE_pred_preserved hcid hp'p
      (updE_pred_preserved hrid hp'e (inv.putOk p' hp'm))
  · -- getOk
    intro c hc
    have hce : c ≠ e.id := getReq_ne inv he hs hc
    by_cases h2 : c = p.producer
    · rw [GetReqOk, h2]
      refine updE_pred_updated (updE_pred_preserved hrid hpne ?_)
      intro ev hev hevp
      exfalso
      have hA := (inv.getOk c hc ev hev (h2 ▸ hevp)).2
      have hB := (inv.putOk p hpmem ev hev hevp).1
      rw [hA] at hB
      simp at hB
    · rw [GetReqOk]
      exact updE_pred_preserved hcid h2
        (updE_pred_preserved hrid hce (inv.getOk c hc))
  · -- putNodup
    have hN := inv.putNodup
    rw [hput, List.map_cons] at hN
    exact (List.nodup_cons.mp hN).2
  · show (List.map GEvent.id _).Nodup
    rw [updE_map_id _ _ hcid, updE_map_id _ _ hrid]
    exact inv.idNodup

/-- Invariant preservation: a `get` that finds an unclaimed non-blocking
deposit — the consumer receives the item; the producer completed back at
deposit time and is untouched. -/
theorem Inv_dispatch_get_match_plain {T : Type} {st : GState T}
    {e : GEvent T} {p : PutEntry T} {rest : List (PutEntry T)}
    (inv : Inv st) (he : e ∈ st.events)
    (hs : e.status = DES.EventState.Scheduled)
    (_hprog : e.prog = GProg.getOp)
    (hput : st.putRequests = p :: rest)
    (hb : p.blocking = false) :
    Inv (⟨e.scheduledAt,
      updE e.id (receiveAt e.scheduledAt p.item) st.events,
      rest, st.getRequests,
      st.log ++ [⟨p.item, p.producer, e.id, p.blocking, p.depositTime,
        e.scheduledAt⟩]⟩ : GState T) := by
  have hpmem : p ∈ st.putRequests := by
    rw [hput]; exact List.mem_cons_self p rest
  have hpne : p.producer ≠ e.id := putReq_producer_ne inv he hs hpmem
  have hrid : ∀ ev : GEvent T, (receiveAt e.scheduledAt p.item ev).id = ev.id :=
    fun _ => rfl
  refine ⟨?_, ?_, ?_, ?_, inv.getNodup, ?_⟩
  · intro m hm
    rcases List.mem_append.mp hm with hm | hm
    · exact ⟨updE_pred_preserved hrid (log_producer_ne inv he hs hm)
          ((inv.logOk m hm).1),
        updE_pred_preserved hrid (log_consumer_ne inv he hs hm)
          ((inv.logOk m hm).2)⟩
    · rcases List.mem_singleton.mp hm with rfl
      constructor
      · rw [ProducerOk]
        refine updE_pred_preserved hrid hpne ?_
        intro ev hev hevp
        have hP := (inv.putOk p hpmem ev hev hevp).2.2 hb
        rw [hb]
        exact hP
      · rw [ConsumerOk]
        refine updE_pred_updated ?_
        intro ev hev hevi
        exact ⟨rfl, rfl, rfl⟩
  · intro p' hp'
    have hp'm : p' ∈ st.putRequests := by
      rw [hput]; exact List.mem_cons_of_mem p hp'
    rw [PutReqOk]
    exact updE_pred_preserved hrid (putReq_producer_ne inv he hs hp'm)
      (inv.putOk p' hp'm)
  · intro c hc
    rw [GetReqOk]
    exact updE_pred_preserved hrid (getReq_ne inv he hs hc) (inv.getOk c hc)
  · have hN := inv.putNodup
    rw [hput, List.map_cons] at hN
    exact (List.nodup_cons.mp hN).2
  · show (List.map GEvent.id _).Nodup
    rw [updE_map_id _ _ hrid]
    exact inv.idNodup

/-- Invariant preservation: a `get` with no unclaimed deposit — the
consumer parks on `getRequests`. -/
theorem Inv_dispatch_get_park {T : Type} {st : GState T} {e : GEvent T}
    (inv : Inv st) (he : e ∈ st.events)
    (hs : e.status = DES.EventState.Scheduled)
    (hprog : e.prog = GProg.getOp) :
    Inv (⟨e.scheduledAt, updE e.id parkEv st.events, st.putRequests,
      st.getRequests ++ [e.id], st.log⟩ : GState T) := by
  have hpid : ∀ ev : GEvent T, (parkEv ev).id = ev.id := fun _ => rfl
  refine ⟨?_, ?_, ?_, inv.putNodup, ?_, ?_⟩
  · intro m hm
    exact ⟨updE_pred_preserved hpid (log_producer_ne inv he hs hm)
        ((inv.logOk m hm).1),
      updE_pred_preserved hpid (log_consumer_ne inv he hs hm)
        ((inv.logOk m hm).2)⟩
  · intro p hp
    rw [PutReqOk]
    exact updE_pred_preserved hpid (putReq_producer_ne inv he hs hp)
      (inv.putOk p hp)
  · intro c hc
    rcases List.mem_append.mp hc with hc | hc
    · rw [GetReqOk]
      exact updE_pred_preserved hpid (getReq_ne inv he hs hc) (inv.getOk c hc)
    · rcases List.mem_singleton.mp hc with rfl
      rw [GetReqOk]
      refine updE_pred_updated ?_
      intro ev hev hevi
      have heq : ev = e := carrier_eq inv.idNodup hev he hevi
      subst heq
      exact ⟨rfl, hprog⟩
  · rw [List.nodup_append]
    refine ⟨inv.getNodup, List.nodup_singleton _, ?_⟩
    intro a ha hb
    rcases List.mem_singleton.mp hb with rfl
    exact getReq_ne inv he hs ha rfl
  · show (List.map GEvent.id _).Nodup
    rw [updE_map_id _ _ hpid]
    exact inv.idNodup

/-- Invariant preservation for a full dispatch of a selected event. -/
theorem Inv_dispatch {T : Type} {st : GState T} {e : GEvent T}
    (inv : Inv st) (he : e ∈ st.events)
    (hs : e.status = DES.EventState.Scheduled) : Inv (dispatch st e) := by
  cases hprog : e.prog with
  | putOp item blocking =>
    cases hget : st.getRequests with
    | cons c rest =>
      simp only [dispatch, hprog, hget]
      exact Inv_dispatch_put_match inv he hs hprog hget
    | nil =>
      cases blocking with
      | true =>
        simp only [dispatch, hprog, hget, if_true]
        exact Inv_dispatch_put_park inv he hs hprog
      | false =>
        simp only [dispatch, hprog, hget, if_false]
        exact Inv_dispatch_put_queue inv he hs hprog
  | getOp =>
    cases hput : st.putRequests with
    | cons p rest =>
      cases hb : p.blocking with
      | true =>
        simp only [dispatch, hprog, hput, hb, if_true]
        exact hb ▸ Inv_dispatch_get_match_blocking inv he hs hprog hput hb
      | false =>
        simp only [dispatch, hprog, hput, hb]
        rw [if_neg (by decide)]
        exact hb ▸ Inv_dispatch_get_match_plain inv he hs hprog hput hb
    | nil =>
      simp only [dispatch, hprog, hput]
      exact hput ▸ Inv_dispatch_get_park inv he hs hprog

theorem pickMin_mem {T : Type} :
    ∀ {l : List (GEvent T)} {e : GEvent T}, pickMin l = some e → e ∈ l := by
  intro l
  induction l with
  | nil => intro e h; simp [pickMin] at h
  | cons x xs ih =>
    intro e h
    rw [pickMin] at h
    cases hp : pickMin xs with
    | none =>
      rw [hp] at h
      injection h with h2
      subst h2
      exact List.mem_cons_self x xs
    | some b =>
      rw [hp] at h
      rw [pickBetter] at h
      split at h
      · injection h with h2
        subst h2
        exact List.mem_cons_self x xs
      · injection h with h2
        subst h2
        exact List.mem_cons_of_mem x (ih hp)

theorem selectNext_mem {T : Type} {now : Int} {l : List (GEvent T)}
    {e : GEvent T} (h : selectNext now l = some e) :
    e ∈ l ∧ e.status = DES.EventState.Scheduled := by
  have hm := pickMin_mem h
  have h1 := List.mem_filter.mp hm
  refine ⟨h1.1, ?_⟩
  have h2 := h1.2
  simp only [due, Bool.and_eq_true, beq_iff_eq, decide_eq_true_eq] at h2
  exact h2.1

/-- The run invariant holds along the whole scheduler loop. -/
theorem run_inv {T : Type} :
    ∀ (fuel : Nat) (st : GState T), Inv st → Inv (run fuel st) := by
  intro fuel
  induction fuel with
  | zero => intro st inv; exact inv
  | succ n ih =>
    intro st inv
    cases hsel : selectNext st.currentTime st.events with
    | none => simpa [run, hsel] using inv
    | some e =>
      simp only [run, hsel]
      obtain ⟨he, hs⟩ := selectNext_mem hsel
      exact ih _ (Inv_dispatch inv he hs)

end Gen

/-- The concrete blocking/non-blocking scenario of the repository's store
test: a blocking deposit at 30, a request at 40, a non-blocking deposit at
50, a request at 60. -/
def gScenario : Gen.GState Int :=
  ⟨0,
    [⟨1, 30, .Scheduled, none, none, .putOp 0 true⟩,
     ⟨2, 40, .Scheduled, none, none, .getOp⟩,
     ⟨3, 50, .Scheduled, none, none, .putOp 0 false⟩,
     ⟨4, 60, .Scheduled, none, none, .getOp⟩],
    [], [], []⟩

/-- C2: over any run of the generator engine from a fresh store (empty
queues, empty log, distinct event ids), every matched blocking deposit's
producer records its completion at the match time (T₂), and every
non-blocking deposit's producer records its completion at the deposit time
(T₁) — whether the deposit is eventually matched (first conjunct, log
entries) or never consumed (second conjunct, entries still queued). -/
theorem claim2_blocking_put_timing (T : Type) (fuel : Nat) (st : Gen.GState T)
    (h0 : st.putRequests = []) (h1 : st.getRequests = []) (h2 : st.log = [])
    (h3 : (st.events.map Gen.GEvent.id).Nodup) :
    (∀ m ∈ (Gen.run fuel st).log,
      ∀ ev ∈ (Gen.run fuel st).events, ev.id = m.producer →
        (m.blocking = true → ev.finishedAt = some m.matchTime) ∧
        (m.blocking = false → ev.finishedAt = some m.depositTime)) ∧
    (∀ p ∈ (Gen.run fuel st).putRequests, p.blocking = false →
      ∀ ev ∈ (Gen.run fuel st).events, ev.id = p.producer →
        ev.finishedAt = some p.depositTime) := by
  have inv0 : Gen.Inv st := by
    refine ⟨?_, ?_, ?_, ?_, ?_, h3⟩
    · rw [h2]; intro m hm; simp at hm
    · rw [h0]; intro p hp; simp at hp
    · rw [h1]; intro c hc; simp at hc
    · rw [h0]; exact List.nodup_nil
    · rw [h1]; exact List.nodup_nil
  have inv := Gen.run_inv fuel st inv0
  constructor
  · intro m hm ev hev hid
    have hP := (inv.logOk m hm).1 ev hev hid
    constructor
    · intro hb
      rw [hP.2, hb]
      simp
    · intro hb
      rw [hP.2, hb]
      simp
  · intro p hp hb ev hev hid
    exact ((inv.putOk p hp ev hev hid).2.2 hb).2

/-- C2 witness: in the repository's blocking/non-blocking test scenario,
the blocking deposit made at 30 and matched at 40 completes at 40, and the
non-blocking deposit made at 50 completes at 50. -/
theorem claim2_witness :
    ((⟨0, 1, 2, true, 30, 40⟩ : Gen.MatchEntry Int) ∈ (Gen.run 4 gScenario).log ∧
      (⟨1, 30, .Completed, some 40, none, .putOp 0 true⟩ : Gen.GEvent Int) ∈
        (Gen.run 4 gScenario).events ∧
      (⟨1, 30, DES.EventState.Completed, some 40, none,
        Gen.GProg.putOp 0 true⟩ : Gen.GEvent Int).finishedAt = some 40) ∧
    ((⟨0, 3, 4, false, 50, 60⟩ : Gen.MatchEntry Int) ∈ (Gen.run 4 gScenario).log ∧
      (⟨3, 50, .Completed, some 50, none, .putOp 0 false⟩ : Gen.GEvent Int) ∈
        (Gen.run 4 gScenario).events ∧
      (⟨3, 50, DES.EventState.Completed, some 50, none,
        Gen.GProg.putOp 0 false⟩ : Gen.GEvent Int).finishedAt = some 50) :=
  ⟨⟨by decide, by decide,
    ((claim2_blocking_put_timing Int 4 gScenario rfl rfl rfl (by decide)).1
      ⟨0, 1, 2, true, 30, 40⟩ (by decide)
      ⟨1, 30, .Completed, some 40, none, .putOp 0 true⟩ (by decide) rfl).1 rfl⟩,
   ⟨by decide, by decide,
    ((claim2_blocking_put_timing Int 4 gScenario rfl rfl rfl (by decide)).1
      ⟨0, 3, 4, false, 50, 60⟩ (by decide)
      ⟨3, 50, .Completed, some 50, none, .putOp 0 false⟩ (by decide) rfl).2 rfl⟩⟩

/-! ## Auxiliary lemmas about the promise-based store -/

/-- Running a concatenated operation sequence composes states and
concatenates the delivery logs. -/
theorem DES.runOps_append (T : Type) (truthy : T → Bool)
    (a b : List (DES.StoreOp T)) :
    ∀ st : DES.StoreState T,
      DES.runOps truthy st (a ++ b) =
        ((DES.runOps truthy (DES.runOps truthy st a).1 b).1,
          (DES.runOps truthy st a).2 ++
            (DES.runOps truthy (DES.runOps truthy st a).1 b).2) := by
  induction a with
  | nil => intro st; simp [DES.runOps]
  | cons op rest ih =>
    intro st
    cases op with
    | putOp item => simp [DES.runOps, ih]
    | getOp c => simp [DES.runOps, ih]

/-- With no waiting consumer, a run of deposits appends the items in order
and delivers nothing. -/
theorem DES.runOps_puts (T : Type) (truthy : T → Bool) (deposits : List T) :
    ∀ items : List T,
      DES.runOps truthy ⟨items, []⟩ (deposits.map DES.StoreOp.putOp) =
        (⟨items ++ deposits, []⟩, []) := by
  induction deposits with
  | nil => intro items; simp [DES.runOps]
  | cons d rest ih =>
    intro items
    simp [DES.runOps, DES.put, ih]

/-- With enough truthy items available and no waiting consumer, a run of
requests serves the items in FIFO order. -/
theorem DES.runOps_gets (T : Type) (truthy : T → Bool) (cids : List Nat) :
    ∀ items : List T, cids.length ≤ items.length →
      (∀ x ∈ items, truthy x = true) →
      DES.runOps truthy ⟨items, []⟩ (cids.map DES.StoreOp.getOp) =
        (⟨items.drop cids.length, []⟩, cids.zip items) := by
  induction cids with
  | nil => intro items _ _; simp [DES.runOps]
  | cons c rest ih =>
    intro items hlen htr
    match items with
    | [] => simp at hlen
    | y :: ys =>
      have hlen' : rest.length ≤ ys.length := by
        simpa [Nat.succ_le_succ_iff] using hlen
      have hy : truthy y = true := htr y (List.mem_cons_self y ys)
      have hys : ∀ x ∈ ys, truthy x = true :=
        fun x hx => htr x (List.mem_cons_of_mem y hx)
      simp [DES.runOps, DES.get, hy, ih ys hlen' hys]

/-! ## Claims about the promise-based store -/

/-- C4 counterexample: deposits of 0 then 1 (0 is falsy in JavaScript)
followed by one request — the `get` shifts the oldest deposit 0, drops it,
and parks the consumer with nothing delivered, so a `get` is *not* always
served from the oldest unclaimed deposit. -/
theorem claim4_counterexample :
    DES.runOps DES.jsTruthyInt (DES.createStore [])
        [.putOp 0, .putOp 1, .getOp 7] = (⟨[1], [7]⟩, []) ∧
    (DES.get DES.jsTruthyInt ⟨[0, 1], []⟩ 7).2 ≠ DES.GetResult.served 0 := by
  decide

/-- C4 amended: every `get` shifts the oldest unclaimed deposit and is
served with it when it is truthy (a falsy oldest deposit is removed, lost,
and the consumer parks); every `put` is delivered to the oldest waiting
consumer; consequently, for N truthy deposits followed by M requests with
M < N on a fresh store, the M requests receive the first M items in
deposit order and exactly N − M items remain queued. -/
theorem claim4_store_fifo (T : Type) (truthy : T → Bool) :
    (∀ (st : DES.StoreState T) (x : T) (c : Nat) (rest : List Nat),
        st.queue = c :: rest →
        DES.put st x = ({ st with queue := rest }, some c, x)) ∧
    (∀ (st : DES.StoreState T) (c : Nat) (y : T) (rest : List T),
        st.items = y :: rest → truthy y = true →
        DES.get truthy st c = ({ st with items := rest }, .served y)) ∧
    (∀ (deposits : List T) (cids : List Nat),
        cids.length < deposits.length →
        (∀ x ∈ deposits, truthy x = true) →
        DES.runOps truthy (DES.createStore [])
            (deposits.map DES.StoreOp.putOp ++ cids.map DES.StoreOp.getOp) =
          (⟨deposits.drop cids.length, []⟩, cids.zip deposits) ∧
        (DES.runOps truthy (DES.createStore [])
            (deposits.map DES.StoreOp.putOp ++ cids.map DES.StoreOp.getOp)).1.items.length
          = deposits.length - cids.length) := by
  refine ⟨?_, ?_, ?_⟩
  · intro st x c rest hq
    simp [DES.put, hq]
  · intro st c y rest hi hy
    simp [DES.get, hi, hy]
  · intro deposits cids hlen htr
    have hrun :
        DES.runOps truthy (DES.createStore [])
            (deposits.map DES.StoreOp.putOp ++ cids.map DES.StoreOp.getOp) =
          (⟨deposits.drop cids.length, []⟩, cids.zip deposits) := by
      rw [DES.runOps_append]
      have h1 : DES.runOps truthy (DES.createStore ([] : List T))
          (deposits.map DES.StoreOp.putOp) = (⟨deposits, []⟩, []) := by
        simpa using DES.runOps_puts T truthy deposits []
      rw [h1]
      have h2 := DES.runOps_gets T truthy cids deposits (Nat.le_of_lt hlen) htr
      simp [h2]
    refine ⟨hrun, ?_⟩
    rw [hrun]
    simp [Nat.le_of_lt hlen]

/-- C4 witness: three truthy deposits then two requests on a fresh store. -/
theorem claim4_witness :
    ((2 : Nat) < 3) ∧
    (∀ x ∈ [(10 : Int), 20, 30], DES.jsTruthyInt x = true) ∧
    DES.runOps DES.jsTruthyInt (DES.createStore [])
        ([10, 20, 30].map DES.StoreOp.putOp ++ [7, 8].map DES.StoreOp.getOp) =
      (⟨[30], []⟩, [(7, (10 : Int)), (8, 20)]) :=
  ⟨by decide, by decide,
    ((claim4_store_fifo Int DES.jsTruthyInt).2.2 [10, 20, 30] [7, 8]
      (by decide) (by decide)).1⟩

/-- C5 counterexample: deposit 0 (falsy), deposit 1, then one request —
the `get` drops the falsy 0 and parks the consumer, leaving the item 1
queued *and* the consumer waiting: both store queues are non-empty at a
quiescent instant, so a deposited item and a pending request coexist
unmatched. -/
theorem claim5_counterexample :
    (DES.runOps DES.jsTruthyInt (DES.createStore [])
      [.putOp 0, .putOp 1, .getOp 7]).1.items ≠ [] ∧
    (DES.runOps DES.jsTruthyInt (DES.createStore [])
      [.putOp 0, .putOp 1, .getOp 7]).1.queue ≠ [] := by
  decide

/-- C5 amended: at every quiescent instant at most one of the two store
queues — unclaimed items and waiting consumers — is non-empty, for any
store created by `createStore` and any operation sequence, provided every
item involved (the initial items and every deposited item) is truthy; a
`get` that shifts a falsy deposit drops it and parks the consumer, after
which a queued item and a pending request coexist. -/
theorem claim5_queues_exclusive (T : Type) (truthy : T → Bool)
    (initialItems : List T) (ops : List (DES.StoreOp T))
    (hinit : ∀ x ∈ initialItems, truthy x = true)
    (hops : ∀ x ∈ DES.putItems ops, truthy x = true) :
    (DES.runOps truthy (DES.createStore initialItems) ops).1.items = [] ∨
    (DES.runOps truthy (DES.createStore initialItems) ops).1.queue = [] := by
  suffices h : ∀ (ops : List (DES.StoreOp T)) (st : DES.StoreState T),
      (∀ x ∈ st.items, truthy x = true) →
      (∀ x ∈ DES.putItems ops, truthy x = true) →
      st.items = [] ∨ st.queue = [] →
      (∀ x ∈ (DES.runOps truthy st ops).1.items, truthy x = true) ∧
      ((DES.runOps truthy st ops).1.items = [] ∨
        (DES.runOps truthy st ops).1.queue = []) by
    exact (h ops (DES.createStore initialItems) hinit hops (Or.inr rfl)).2
  intro ops
  induction ops with
  | nil => intro st h1 _ h3; exact ⟨h1, h3⟩
  | cons op rest ih =>
    intro st h1 h2 h3
    cases op with
    | putOp item =>
      have hitem : truthy item = true :=
        h2 item (by rw [DES.putItems]; exact List.mem_cons_self _ _)
      have h2' : ∀ x ∈ DES.putItems rest, truthy x = true :=
        fun x hx => h2 x (by rw [DES.putItems]; exact List.mem_cons_of_mem _ hx)
      show (∀ x ∈ (DES.runOps truthy (DES.put st item).1 rest).1.items,
          truthy x = true) ∧
        ((DES.runOps truthy (DES.put st item).1 rest).1.items = [] ∨
          (DES.runOps truthy (DES.put st item).1 rest).1.queue = [])
      refine ih _ ?_ h2' ?_
      · match hq : st.queue with
        | c :: qs =>
          simp only [DES.put, hq]
          exact h1
        | [] =>
          simp only [DES.put, hq]
          intro x hx
          rcases List.mem_append.mp hx with hx | hx
          · exact h1 x hx
          · rcases List.mem_singleton.mp hx with rfl
            exact hitem
      · match hq : st.queue with
        | c :: qs =>
          have hie : st.items = [] := h3.resolve_right (by simp [hq])
          simp [DES.put, hq, hie]
        | [] => simp [DES.put, hq]
    | getOp c =>
      have h2' : ∀ x ∈ DES.putItems rest, truthy x = true :=
        fun x hx => h2 x (by rw [DES.putItems]; exact hx)
      show (∀ x ∈ (DES.runOps truthy (DES.get truthy st c).1 rest).1.items,
          truthy x = true) ∧
        ((DES.runOps truthy (DES.get truthy st c).1 rest).1.items = [] ∨
          (DES.runOps truthy (DES.get truthy st c).1 rest).1.queue = [])
      refine ih _ ?_ h2' ?_
      · match hi : st.items with
        | x :: xs =>
          have hx : truthy x = true := h1 x (by rw [hi]; exact List.mem_cons_self x xs)
          simp only [DES.get, hi, hx, if_true]
          intro z hz
          exact h1 z (by rw [hi]; exact List.mem_cons_of_mem x hz)
        | [] =>
          simp only [DES.get, hi]
          intro z hz
          simp at hz
      · match hi : st.items with
        | x :: xs =>
          have hqe : st.queue = [] := h3.resolve_left (by simp [hi])
          have hx : truthy x = true := h1 x (by rw [hi]; exact List.mem_cons_self x xs)
          simp [DES.get, hi, hx, hqe]
        | [] => simp [DES.get, hi]

/-- C5 witness: one truthy deposit then one request leaves both queues
empty. -/
theorem claim5_witness :
    (∀ x ∈ DES.putItems [DES.StoreOp.putOp (1 : Int), DES.StoreOp.getOp 7],
      DES.jsTruthyInt x = true) ∧
    ((DES.runOps DES.jsTruthyInt (DES.createStore [])
        [DES.StoreOp.putOp (1 : Int), DES.StoreOp.getOp 7]).1.items = [] ∨
      (DES.runOps DES.jsTruthyInt (DES.createStore [])
        [DES.StoreOp.putOp (1 : Int), DES.StoreOp.getOp 7]).1.queue = []) :=
  ⟨by decide,
    claim5_queues_exclusive Int DES.jsTruthyInt []
      [DES.StoreOp.putOp 1, DES.StoreOp.getOp 7] (by decide) (by decide)⟩

/-- C9 counterexample: depositing the falsy item 0 on a fresh store and
then requesting does not return 0 — the `get` shifts 0, drops it, and
parks the consumer. -/
theorem claim9_counterexample :
    DES.get DES.jsTruthyInt (DES.put (DES.createStore []) (0 : Int)).1 7 =
      (⟨[], [7]⟩, .parked) ∧
    DES.GetResult.parked ≠ DES.GetResult.served (0 : Int) := by
  decide

/-- C9 amended: on a freshly created empty store, a single `put` of a
truthy item `x` followed by a single `get` returns exactly `x`: the
deposit queues `x` (no consumer is resolved, the producer's own promise
resolves with `x`), and the `get` serves `x` immediately; a falsy `x`
would instead be removed, lost, and the consumer parked. -/
theorem claim9_put_get_roundtrip (T : Type) (truthy : T → Bool) (x : T)
    (c : Nat) (hx : truthy x = true) :
    DES.put (DES.createStore []) x = (⟨[x], []⟩, none, x) ∧
    DES.get truthy (DES.put (DES.createStore []) x).1 c =
      (⟨[], []⟩, .served x) := by
  refine ⟨rfl, ?_⟩
  show DES.get truthy ⟨[x], []⟩ c = _
  simp [DES.get, hx]

/-- C9 witness: the truthy item 5 deposited and then requested is returned
exactly. -/
theorem claim9_witness :
    DES.jsTruthyInt 5 = true ∧
    DES.get DES.jsTruthyInt (DES.put (DES.createStore []) (5 : Int)).1 7 =
      (⟨[], []⟩, .served 5) :=
  ⟨by decide, (claim9_put_get_roundtrip Int DES.jsTruthyInt 5 7 (by decide)).2⟩

/-! ## Claims about the scheduler -/

/-- C3: `scheduleEvent` fails (with the CausalityViolation `RangeError`)
exactly when the event is due strictly before the current time, and on
failure the caller's simulation — in particular its event queue — is left
unmodified (`admitEvent` models the caller-side assignment under the thrown
exception). -/
theorem claim3_causality_violation (T : Type) (sim : DES.Simulation T)
    (e : DES.PromiseEvent T) :
    (DES.exceptIsError (DES.scheduleEvent sim e) = true ↔
      e.scheduledAt < sim.currentTime) ∧
    (e.scheduledAt < sim.currentTime → DES.admitEvent sim e = sim) := by
  constructor
  · by_cases h : e.scheduledAt < sim.currentTime <;>
      simp [DES.scheduleEvent, DES.exceptIsError, h]
  · intro h
    simp [DES.admitEvent, DES.scheduleEvent, h]

/-- C3 witness: scheduling at time 3 when the clock is at 5 fails and
leaves the simulation untouched. -/
theorem claim3_witness :
    ((3 : Int) < 5) ∧
    DES.admitEvent (⟨5, [], 1⟩ : DES.Simulation Int) ⟨1, .Fired, 5, 3, none, none⟩ =
      (⟨5, [], 1⟩ : DES.Simulation Int) :=
  ⟨by decide,
    (claim3_causality_violation Int ⟨5, [], 1⟩ ⟨1, .Fired, 5, 3, none, none⟩).2
      (by decide)⟩

/-- C7 counterexample: a dispatched event whose process runs to the final
value 42 — but only in a microtask after the kernel's shutdown — loses
`handleEvent`'s race to the termination branch and is produced as
`Terminated`, without its result, refuting the claim that every process
that runs to a final value yields a `Completed` event carrying it. -/
theorem claim7_counterexample :
    (DES.handleEvent (⟨5, [], 1⟩ : DES.Simulation Int)
        ⟨1, .Pending, 0, 3, none, none⟩
        (DES.raceOutcome (.resolvedAfterShutdown 42))).status =
      DES.EventState.Terminated ∧
    (DES.handleEvent (⟨5, [], 1⟩ : DES.Simulation Int)
        ⟨1, .Pending, 0, 3, none, none⟩
        (DES.raceOutcome (.resolvedAfterShutdown 42))).status ≠
      DES.EventState.Completed ∧
    (DES.handleEvent (⟨5, [], 1⟩ : DES.Simulation Int)
        ⟨1, .Pending, 0, 3, none, none⟩
        (DES.raceOutcome (.resolvedAfterShutdown 42))).item ≠ some 42 := by
  decide

/-- C7 amended: `handleEvent` produces the event with status `Completed`,
`finishedAt` equal to the simulation's `currentTime` at settlement, and
`item` equal to the process's returned result exactly for processes whose
promise settled before the kernel's termination promise resolved (fate
`resolvedBeforeShutdown`); a process that reaches its final value only
after shutdown loses the race and is produced as `Terminated`, keeping its
prior `item`. -/
theorem claim7_completion_race (T : Type) (sim : DES.Simulation T)
    (e : DES.PromiseEvent T) (r : T) :
    ((DES.handleEvent sim e (DES.raceOutcome (.resolvedBeforeShutdown r))).status =
        DES.EventState.Completed ∧
      (DES.handleEvent sim e (DES.raceOutcome (.resolvedBeforeShutdown r))).finishedAt =
        some sim.currentTime ∧
      (DES.handleEvent sim e (DES.raceOutcome (.resolvedBeforeShutdown r))).item =
        some r) ∧
    ((DES.handleEvent sim e (DES.raceOutcome (.resolvedAfterShutdown r))).status =
        DES.EventState.Terminated ∧
      (DES.handleEvent sim e (DES.raceOutcome (.resolvedAfterShutdown r))).item =
        e.item) :=
  ⟨⟨rfl, rfl, rfl⟩, ⟨rfl, rfl⟩⟩

/-- C10: a simulation from `initializeSimulation` starts at `currentTime`
0 with no events, and a first event may be created and admitted at any
non-negative due time. -/
theorem claim10_initial_state :
    (DES.initSimulation Int).currentTime = 0 ∧
    (DES.initSimulation Int).events = [] ∧
    ∀ t : Int, 0 ≤ t →
      DES.exceptIsError
        (DES.scheduleEvent (DES.createEvent (DES.initSimulation Int) t).2
          (DES.createEvent (DES.initSimulation Int) t).1) = false := by
  refine ⟨rfl, rfl, ?_⟩
  intro t ht
  simp [DES.scheduleEvent, DES.createEvent, DES.initSimulation,
    DES.exceptIsError, not_lt.mpr ht]

/-- C10 witness: the first event can be admitted at time 7. -/
theorem claim10_witness :
    ((0 : Int) ≤ 7) ∧
    DES.exceptIsError
      (DES.scheduleEvent (DES.createEvent (DES.initSimulation Int) 7).2
        (DES.createEvent (DES.initSimulation Int) 7).1) = false :=
  ⟨by decide, claim10_initial_state.2.2 7 (by decide)⟩

/-- C6 counterexample: the run loop of `runSimulation` settles a still
`Pending` (parked) event through the termination branch of `handleEvent`'s
race, which assigns it the terminal status `Terminated` — so a parked
process's event does receive a terminal status transition at shutdown,
contradicting the claim. -/
theorem claim6_counterexample :
    DES.settleAll (⟨5, [⟨1, .Pending, 0, 3, none, none⟩], 1⟩ : DES.Simulation Int)
        (fun _ => .terminationFirst) =
      [⟨1, DES.EventState.Terminated, 0, 3, some 5, none⟩] ∧
    DES.EventState.Terminated ≠ DES.EventState.Pending := by
  refine ⟨rfl, by decide⟩

/-- C6 amended: when the run loop stops while an event is still `Pending`
(its process parked on an unsatisfied store wait, so its promise never
settles before termination), the termination branch of its race settles it
to the terminal status `Terminated` — not `Completed` — with `finishedAt`
equal to the `currentTime` at shutdown; dispatching itself stops. -/
theorem claim6_shutdown_terminates (T : Type) (sim : DES.Simulation T)
    (outcome : Nat → DES.RaceOutcome T) (e : DES.PromiseEvent T)
    (he : e ∈ sim.events) (hp : e.status = DES.EventState.Pending)
    (ho : outcome e.id = .terminationFirst) :
    DES.handleEvent sim e .terminationFirst ∈ DES.settleAll sim outcome ∧
    (DES.handleEvent sim e .terminationFirst).status = DES.EventState.Terminated ∧
    (DES.handleEvent sim e .terminationFirst).status ≠ DES.EventState.Completed ∧
    (DES.handleEvent sim e .terminationFirst).finishedAt = some sim.currentTime := by
  refine ⟨?_, rfl, by simp [DES.handleEvent], rfl⟩
  unfold DES.settleAll
  refine List.mem_map.mpr ⟨e, he, ?_⟩
  rw [if_pos hp, ho]

/-- C6 witness: a concrete parked event is settled to `Terminated` at
shutdown time 5. -/
theorem claim6_witness :
    ((⟨1, .Pending, 0, 3, none, none⟩ : DES.PromiseEvent Int) ∈
      (⟨5, [⟨1, .Pending, 0, 3, none, none⟩], 1⟩ : DES.Simulation Int).events) ∧
    DES.handleEvent (⟨5, [⟨1, .Pending, 0, 3, none, none⟩], 1⟩ : DES.Simulation Int)
        ⟨1, .Pending, 0, 3, none, none⟩ .terminationFirst ∈
      DES.settleAll (⟨5, [⟨1, .Pending, 0, 3, none, none⟩], 1⟩ : DES.Simulation Int)
        (fun _ => .terminationFirst) :=
  ⟨by decide,
    (claim6_shutdown_terminates Int ⟨5, [⟨1, .Pending, 0, 3, none, none⟩], 1⟩
      (fun _ => .terminationFirst) ⟨1, .Pending, 0, 3, none, none⟩
      (by decide) (by decide) rfl).1⟩

/-! ## Dispatch-order development for the scheduler -/

/-- Strict queue order maintained by `scheduleEvent`'s sort: strictly
descending in due time, and ascending in id (admission order) among
equal due times. -/
def DES.qRel (a b : DES.PromiseEvent T) : Prop :=
  b.scheduledAt < a.scheduledAt ∨ (a.scheduledAt = b.scheduledAt ∧ a.id < b.id)

/-- Ids increase along equal due times. -/
def DES.tieRel (a b : DES.PromiseEvent T) : Prop :=
  a.scheduledAt = b.scheduledAt → a.id < b.id

/-- The order in which `runSimulation` actually dispatches: due times
non-decreasing, and among equal due times the ids decrease (the
later-admitted event runs first). -/
def DES.stepRel (a b : DES.PromiseEvent T) : Prop :=
  a.scheduledAt ≤ b.scheduledAt ∧ (a.scheduledAt = b.scheduledAt → b.id < a.id)

theorem DES.qRel_tieRel {T : Type} {a b : DES.PromiseEvent T}
    (h : DES.qRel a b) : DES.tieRel a b := by
  intro heq
  rcases h with h | ⟨h1, h2⟩
  · omega
  · exact h2

instance {T : Type} : IsTrans (DES.PromiseEvent T) DES.stepRel :=
  ⟨fun a b c hab hbc => by
    obtain ⟨hab1, hab2⟩ := hab
    obtain ⟨hbc1, hbc2⟩ := hbc
    refine ⟨le_trans hab1 hbc1, fun heq => ?_⟩
    have h1 : a.scheduledAt = b.scheduledAt := by omega
    have h2 : b.scheduledAt = c.scheduledAt := by omega
    exact lt_trans (hbc2 h2) (hab2 h1)⟩

theorem DES.insertEvent_mem {T : Type} {a e : DES.PromiseEvent T} :
    ∀ {l : List (DES.PromiseEvent T)},
      a ∈ DES.insertEvent e l ↔ a = e ∨ a ∈ l := by
  intro l
  induction l with
  | nil => simp [DES.insertEvent]
  | cons x xs ih =>
    simp only [DES.insertEvent]
    split
    · simp
    · simp only [List.mem_cons, ih]
      tauto

theorem DES.sortDesc_mem {T : Type} {a : DES.PromiseEvent T} :
    ∀ {l : List (DES.PromiseEvent T)},
      a ∈ DES.sortByScheduledAtDesc l ↔ a ∈ l := by
  intro l
  induction l with
  | nil => simp [DES.sortByScheduledAtDesc]
  | cons x xs ih =>
    show a ∈ DES.insertEvent x (DES.sortByScheduledAtDesc xs) ↔ _
    simp only [DES.insertEvent_mem, ih, List.mem_cons]

theorem DES.insertEvent_pairwise {T : Type} {e : DES.PromiseEvent T} :
    ∀ {l : List (DES.PromiseEvent T)}, List.Pairwise DES.qRel l →
      (∀ x ∈ l, DES.tieRel e x) →
      List.Pairwise DES.qRel (DES.insertEvent e l) := by
  intro l
  induction l with
  | nil => intro _ _; simp [DES.insertEvent]
  | cons x xs ih =>
    intro hp ht
    obtain ⟨hx, hxs⟩ := List.pairwise_cons.mp hp
    simp only [DES.insertEvent]
    split
    case isTrue h1 =>
      refine List.pairwise_cons.mpr ⟨?_, hp⟩
      intro z hz
      rcases List.mem_cons.mp hz with rfl | hz'
      · rcases lt_or_eq_of_le h1 with h | h
        · exact Or.inl h
        · exact Or.inr ⟨h.symm, ht z hz h.symm⟩
      · rcases hx z hz' with h | ⟨hA, hI⟩
        · exact Or.inl (lt_of_lt_of_le h h1)
        · rcases lt_or_eq_of_le (hA ▸ h1) with h | h
          · exact Or.inl h
          · exact Or.inr ⟨h.symm, ht z (List.mem_cons_of_mem x hz') h.symm⟩
    case isFalse h1 =>
      have hlt : e.scheduledAt < x.scheduledAt := lt_of_not_le h1
      refine List.pairwise_cons.mpr ⟨?_, ih hxs (fun z hz => ht z (List.mem_cons_of_mem x hz))⟩
      intro w hw
      rcases DES.insertEvent_mem.mp hw with rfl | hw'
      · exact Or.inl hlt
      · exact hx w hw'

theorem DES.sortDesc_pairwise {T : Type} :
    ∀ {l : List (DES.PromiseEvent T)}, List.Pairwise DES.tieRel l →
      List.Pairwise DES.qRel (DES.sortByScheduledAtDesc l) := by
  intro l
  induction l with
  | nil => simp [DES.sortByScheduledAtDesc]
  | cons x xs ih =>
    intro hp
    obtain ⟨hx, hxs⟩ := List.pairwise_cons.mp hp
    show List.Pairwise DES.qRel (DES.insertEvent x (DES.sortByScheduledAtDesc xs))
    exact DES.insertEvent_pairwise (ih hxs)
      (fun z hz => hx z (DES.sortDesc_mem.mp hz))

/-- The queue invariant maintained by admissions: the events array is in
strict `qRel` order (descending due time, admission order on ties) and
every id is within the id counter. -/
def DES.QInv (sim : DES.Simulation T) : Prop :=
  List.Pairwise DES.qRel sim.events ∧ ∀ x ∈ sim.events, x.id ≤ sim.nextId

theorem DES.QInv_admit {T : Type} {sim : DES.Simulation T}
    {e : DES.PromiseEvent T} (h : DES.QInv sim)
    (hid : ∀ x ∈ sim.events, x.id < e.id) (hn : e.id ≤ sim.nextId) :
    DES.QInv (DES.admitEvent sim e) := by
  unfold DES.admitEvent DES.scheduleEvent
  by_cases hc : e.scheduledAt < sim.currentTime
  · simp only [if_pos hc]
    exact h
  · simp only [if_neg hc]
    constructor
    · apply DES.sortDesc_pairwise
      rw [List.pairwise_append]
      refine ⟨h.1.imp DES.qRel_tieRel, List.pairwise_singleton _ _, ?_⟩
      intro x hx y hy
      rcases List.mem_singleton.mp hy with rfl
      intro _
      exact hid x hx
    · intro x hx
      rcases List.mem_append.mp (DES.sortDesc_mem.mp hx) with hx' | hx'
      · exact h.2 x hx'
      · rcases List.mem_singleton.mp hx' with rfl
        exact hn

theorem DES.QInv_fireAndSchedule {T : Type} {sim : DES.Simulation T}
    (h : DES.QInv sim) (t : Int) : DES.QInv (DES.fireAndSchedule sim t) := by
  show DES.QInv (DES.admitEvent { sim with nextId := sim.nextId + 1 } _)
  apply DES.QInv_admit
  · exact ⟨h.1, fun x hx => Nat.le_succ_of_le (h.2 x hx)⟩
  · intro x hx
    exact Nat.lt_succ_of_le (h.2 x hx)
  · exact le_refl _

theorem DES.QInv_buildSim (ts : List Int) : DES.QInv (DES.buildSim ts) := by
  suffices h : ∀ (ts : List Int) (sim : DES.Simulation Int), DES.QInv sim →
      DES.QInv (ts.foldl DES.fireAndSchedule sim) by
    exact h ts _ ⟨List.Pairwise.nil, by simp [DES.initSimulation]⟩
  intro ts
  induction ts with
  | nil => intro sim h; exact h
  | cons t rest ih =>
    intro sim h
    exact ih _ (DES.QInv_fireAndSchedule h t)

theorem DES.pairwise_getLast {α : Type} {R : α → α → Prop} :
    ∀ {l : List α} {e : α}, List.Pairwise R l → l.getLast? = some e →
      ∀ x ∈ l, x = e ∨ R x e := by
  intro l
  induction l with
  | nil => intro e _ hL; simp at hL
  | cons a t ih =>
    intro e hp hL x hx
    cases t with
    | nil =>
      simp at hL
      rcases List.mem_singleton.mp hx with rfl
      exact Or.inl hL
    | cons b t' =>
      rw [List.getLast?_cons_cons] at hL
      rcases List.mem_cons.mp hx with rfl | hx'
      · exact Or.inr ((List.pairwise_cons.mp hp).1 e (List.mem_of_mem_getLast? hL))
      · exact ih (List.pairwise_cons.mp hp).2 hL x hx'

/-- Every dispatched event was a due `Scheduled` member of the starting
queue, due no earlier than the starting clock. -/
theorem DES.runLoop_mem {T : Type} :
    ∀ (fuel : Nat) (sim : DES.Simulation T),
      ∀ x ∈ (DES.runLoop fuel sim).2,
        sim.currentTime ≤ x.scheduledAt ∧ x ∈ sim.events ∧
          x.status = DES.EventState.Scheduled := by
  intro fuel
  induction fuel with
  | zero => intro sim x hx; simp [DES.runLoop] at hx
  | succ n ih =>
    intro sim x hx
    cases hL : (sim.events.filter (DES.dueFilter sim.currentTime)).getLast? with
    | none => simp [DES.runLoop, hL] at hx
    | some e =>
      simp only [DES.runLoop, hL] at hx
      have heF : e ∈ sim.events.filter (DES.dueFilter sim.currentTime) :=
        List.mem_of_mem_getLast? hL
      have heM : e ∈ sim.events := (List.mem_filter.mp heF).1
      have heD := (List.mem_filter.mp heF).2
      simp only [DES.dueFilter, Bool.and_eq_true, decide_eq_true_eq,
        beq_iff_eq] at heD
      rcases List.mem_cons.mp hx with rfl | hx'
      · exact ⟨heD.1, heM, heD.2⟩
      · have hrec := ih _ x hx'
        obtain ⟨h1, h2, h3⟩ := hrec
        refine ⟨le_trans heD.1 h1, ?_, h3⟩
        rcases List.mem_map.mp h2 with ⟨z, hz, hzx⟩
        by_cases hzi : z.id = e.id
        · rw [if_pos hzi] at hzx
          rw [← hzx] at h3
          simp at h3
        · rw [if_neg hzi] at hzx
          exact hzx ▸ hz

/-- The dispatch sequence of the loop is a `stepRel` chain whenever the
queue satisfies the sort invariant. -/
theorem DES.runLoop_chain {T : Type} :
    ∀ (fuel : Nat) (sim : DES.Simulation T),
      List.Pairwise DES.qRel sim.events →
      List.Chain' DES.stepRel (DES.runLoop fuel sim).2 := by
  intro fuel
  induction fuel with
  | zero => intro sim _; simp [DES.runLoop]
  | succ n ih =>
    intro sim hp
    cases hL : (sim.events.filter (DES.dueFilter sim.currentTime)).getLast? with
    | none => simp [DES.runLoop, hL]
    | some e =>
      simp only [DES.runLoop, hL]
      have heF : e ∈ sim.events.filter (DES.dueFilter sim.currentTime) :=
        List.mem_of_mem_getLast? hL
      have heD := (List.mem_filter.mp heF).2
      simp only [DES.dueFilter, Bool.and_eq_true, decide_eq_true_eq,
        beq_iff_eq] at heD
      have hp' : List.Pairwise DES.qRel
          (DES.markPending e.id sim.events) := by
        refine List.Pairwise.map _ ?_ hp
        intro a b hab
        unfold DES.qRel at hab ⊢
        split <;> split <;> exact hab
      rw [List.chain'_cons']
      refine ⟨?_, ih _ hp'⟩
      intro y hy
      have hyR := List.mem_of_mem_head? hy
      obtain ⟨hy1, hy2, hy3⟩ := DES.runLoop_mem n _ y hyR
      refine ⟨hy1, fun heq => ?_⟩
      rcases List.mem_map.mp hy2 with ⟨z, hz, hzy⟩
      by_cases hzi : z.id = e.id
      · rw [if_pos hzi] at hzy
        rw [← hzy] at hy3
        simp at hy3
      · rw [if_neg hzi] at hzy
        have hyE : y ∈ sim.events := hzy ▸ hz
        have hyI : y.id ≠ e.id := by rw [← hzy]; exact hzi
        have hyF : y ∈ sim.events.filter (DES.dueFilter sim.currentTime) := by
          refine List.mem_filter.mpr ⟨hyE, ?_⟩
          simp only [DES.dueFilter, Bool.and_eq_true, decide_eq_true_eq,
            beq_iff_eq]
          exact ⟨by omega, hy3⟩
        rcases DES.pairwise_getLast (hp.filter _) hL y hyF with rfl | hrel
        · exact absurd rfl hyI
        · rcases hrel with h | ⟨hA, hI⟩
          · omega
          · exact hI

/-- C1 counterexample: two events admitted at the same due time 0 (ids 1
then 2, in admission order) are dispatched in reverse admission order —
the later-admitted event runs first — refuting the claimed tie-break. -/
theorem claim1_counterexample :
    ¬ List.Pairwise
        (fun a b : DES.PromiseEvent Int =>
          a.scheduledAt ≤ b.scheduledAt ∧ (a.scheduledAt = b.scheduledAt → a.id < b.id))
        (DES.runSimulation (DES.buildSim [0, 0])).2 := by
  decide

/-- C1 amended: for every admission sequence, the dispatch order of
`runSimulation` is non-decreasing in `scheduledAt`, and among admitted
events sharing the same `scheduledAt` the event admitted later via
`scheduleEvent` (the larger id) is dispatched first. -/
theorem claim1_amended_dispatch_order (ts : List Int) :
    List.Pairwise DES.stepRel (DES.runSimulation (DES.buildSim ts)).2 :=
  List.chain'_iff_pairwise.mp
    (DES.runLoop_chain _ _ (DES.QInv_buildSim ts).1)

/-- C8: `currentTime` is monotonically non-decreasing across a whole run —
it starts at the initial value, each dispatched event advances it to that
event's due time in non-decreasing order, and `scheduleEvent` never moves
it; moreover an event is only ever admitted with a due time at or after
the `currentTime` at admission. -/
theorem claim8_time_monotone :
    (∀ ts : List Int,
      List.Chain' (fun a b : Int => a ≤ b)
        ((DES.buildSim ts).currentTime ::
          (DES.runSimulation (DES.buildSim ts)).2.map DES.PromiseEvent.scheduledAt)) ∧
    (∀ (T : Type) (sim : DES.Simulation T) (e : DES.PromiseEvent T)
        (evs : List (DES.PromiseEvent T)),
      DES.scheduleEvent sim e = .ok evs → sim.currentTime ≤ e.scheduledAt) ∧
    (∀ (T : Type) (sim : DES.Simulation T) (e : DES.PromiseEvent T),
      (DES.admitEvent sim e).currentTime = sim.currentTime) := by
  refine ⟨?_, ?_, ?_⟩
  · intro ts
    rw [List.chain'_cons']
    constructor
    · intro y hy
      rcases List.mem_map.mp (List.mem_of_mem_head? hy) with ⟨x, hx, rfl⟩
      exact (DES.runLoop_mem _ _ x hx).1
    · rw [List.chain'_map]
      refine List.Chain'.imp ?_
        (DES.runLoop_chain _ _ (DES.QInv_buildSim ts).1)
      intro a b hab
      exact hab.1
  · intro T sim e evs h
    by_contra hc
    have hlt : e.scheduledAt < sim.currentTime := lt_of_not_le hc
    simp [DES.scheduleEvent, hlt] at h
  · intro T sim e
    unfold DES.admitEvent
    cases h : DES.scheduleEvent sim e with
    | ok evs => rfl
    | error m => rfl

/-- C8 witness: a successful admission at time 7 from the initial clock 0
satisfies the admission-time bound. -/
theorem claim8_witness :
    DES.scheduleEvent (DES.initSimulation Int) ⟨1, .Fired, 0, 7, none, none⟩ =
      .ok [⟨1, .Scheduled, 0, 7, none, none⟩] ∧
    (DES.initSimulation Int).currentTime ≤ (7 : Int) :=
  ⟨by rfl,
    claim8_time_monotone.2.1 Int (DES.initSimulation Int)
      ⟨1, .Fired, 0, 7, none, none⟩ [⟨1, .Scheduled, 0, 7, none, none⟩]
      (by rfl)⟩
